import Mathlib

/-!
Verification of the mishards query router / parallel search aggregator
(`src/mishards/service_handler.py`), against its natural-language
specification.

The development shallowly embeds the code:

* `QueryResult`, `FilesCollection`, `Status` mirror the gRPC data shapes
  consumed by `ServiceHandler._do_merge`;
* `doMerge` mirrors `_do_merge` (incremental per-position
  extend / stable-sort / truncate over a `defaultdict(list)`);
* `Search` mirrors `ServiceHandler.Search` together with `_do_query`,
  with the backend (describe_table / routing / search_vectors_in_files)
  supplied as an oracle `SearchEnv`, and the calls issued to the backend
  returned as an explicit trace;
* Python's `sorted(key=..., reverse=...)` (a stable sort) is embedded as
  `List.insertionSort` over the corresponding key order, which is a stable
  sort; the reference merge (`mergeReference`) instead sorts rows
  decorated with their position in the partial-order concatenation by a
  key order that is injective on decorated rows, so that it is *the*
  sort by distance with ties broken by (partial index, row position).

Distances are embedded as rationals (the non-NaN fragment of the
floating-point doubles carried on the wire).
-/

namespace StableSort

/-- The key preorder underlying a Python `sorted(xs, key=k)` call:
compare elements by their keys. -/
def keyLE {α γ : Type} [LinearOrder γ] (k : α → γ) (a b : α) : Prop :=
  k a ≤ k b

instance {α γ : Type} [LinearOrder γ] (k : α → γ) : DecidableRel (keyLE k) :=
  fun _ _ => inferInstanceAs (Decidable (_ ≤ _))

instance {α γ : Type} [LinearOrder γ] (k : α → γ) : IsTotal α (keyLE k) :=
  ⟨fun a b => le_total (k a) (k b)⟩

instance {α γ : Type} [LinearOrder γ] (k : α → γ) : IsTrans α (keyLE k) :=
  ⟨fun _ _ _ h h' => le_trans h h'⟩

/-- The linear-order refinement of `keyLE` on index-decorated elements:
compare by key, break key ties by the decoration index.  On lists whose
indices are pairwise distinct this order has a unique sorted arrangement,
which is exactly the stable sort of the underlying list. -/
def decLE {α γ : Type} [LinearOrder γ] (k : α → γ) (x y : ℕ × α) : Prop :=
  k x.2 < k y.2 ∨ (k x.2 = k y.2 ∧ x.1 ≤ y.1)

instance {α γ : Type} [LinearOrder γ] (k : α → γ) : DecidableRel (decLE k) :=
  fun _ _ => inferInstanceAs (Decidable (_ ∨ _))

instance {α γ : Type} [LinearOrder γ] (k : α → γ) : IsTotal (ℕ × α) (decLE k) where
  total x y := by
    rcases lt_trichotomy (k x.2) (k y.2) with h | h | h
    · exact Or.inl (Or.inl h)
    · rcases Nat.le_total x.1 y.1 with h' | h'
      · exact Or.inl (Or.inr ⟨h, h'⟩)
      · exact Or.inr (Or.inr ⟨h.symm, h'⟩)
    · exact Or.inr (Or.inl h)

instance {α γ : Type} [LinearOrder γ] (k : α → γ) : IsTrans (ℕ × α) (decLE k) where
  trans x y z hxy hyz := by
    rcases hxy with h | ⟨he, hi⟩ <;> rcases hyz with h' | ⟨he', hi'⟩
    · exact Or.inl (lt_trans h h')
    · exact Or.inl (he' ▸ h)
    · exact Or.inl (he ▸ h')
    · exact Or.inr ⟨he.trans he', le_trans hi hi'⟩

/-- Decorate a list with consecutive indices starting at `n`. -/
def dec {α : Type} (n : ℕ) : List α → List (ℕ × α)
  | [] => []
  | a :: l => (n, a) :: dec (n + 1) l

/-- Add `c` to every decoration index. -/
def shiftIdx {α : Type} (c : ℕ) (d : List (ℕ × α)) : List (ℕ × α) :=
  d.map fun x => (x.1 + c, x.2)

/-- A decorated list in which key-tied elements appear in index order;
stable sorting the underlying list agrees with `decLE`-sorting such a
decoration. -/
def TieIdx {α γ : Type} [LinearOrder γ] (k : α → γ) (d : List (ℕ × α)) : Prop :=
  d.Pairwise fun x y => k x.2 = k y.2 → x.1 < y.1

/-- The canonical "sort by key, ties by original position, truncate to `n`"
reference: decorate with positions, sort by the `decLE` linear order,
strip the decoration, keep the first `n`. -/
def keySortTake {α γ : Type} [LinearOrder γ] (k : α → γ) (n : ℕ)
    (X : List α) : List α :=
  ((List.insertionSort (decLE k) (dec 0 X)).map Prod.snd).take n

end StableSort

namespace Mishards

open StableSort

/-- `milvus.grpc_gen.status_pb2.Status`: an error code plus a reason string.
`SUCCESS` is code 0 (`Status.OK()` in the client checks `code == 0`). -/
structure Status where
  error_code : Nat
  reason : String
deriving DecidableEq, Repr

/-- The `Status` built at the top of `_do_merge`:
`Status(error_code=SUCCESS, reason="Success")`. -/
def statusSuccess : Status := ⟨0, "Success"⟩

/-- One result row of `query_result_arrays`: a vector id and a distance. -/
structure QueryResult where
  id : Int
  distance : ℚ
deriving DecidableEq, Repr

/-- One element of the `files_n_topk_results` list consumed by `_do_merge`:
either a `(status, payload)` tuple (the shape produced by a failed
sub-query) or a result object carrying `topk_query_result`, a list of
per-query blocks, each block a list of `query_result_arrays` rows. -/
inductive FilesCollection where
  | err (status : Status) (payload : List (List QueryResult))
  | ok (topk_query_result : List (List QueryResult))
deriving DecidableEq, Repr

namespace FilesCollection

/-- `isinstance(files_collection, tuple)` in `_do_merge`. -/
def isTuple : FilesCollection → Bool
  | err _ _ => true
  | ok _ => false

/-- The blocks carried by a result object (`[]` for a tuple, whose payload
is discarded by `_do_merge` via `status, _ = files_collection`). -/
def blocks : FilesCollection → List (List QueryResult)
  | err _ _ => []
  | ok bs => bs

end FilesCollection

/-- The sort key used by `sorted(..., key=lambda x: x.distance, reverse=reverse)`:
sorting descending by `distance` is stable-sorting ascending by `-distance`
(CPython's `reverse=True` keeps tied elements in their original order). -/
def distKey (reverse : Bool) (x : QueryResult) : ℚ :=
  if reverse then -x.distance else x.distance

/-- Python's `sorted(rows, key=lambda x: x.distance, reverse=reverse)`:
a stable sort by the key order, embedded as insertion sort (which is
stable: an element is inserted before all elements tied with it that
came later in the input). -/
def pySorted (reverse : Bool) (rows : List QueryResult) : List QueryResult :=
  List.insertionSort (keyLE (distKey reverse)) rows

/-- `request_results[request_pos] = sorted(request_results[request_pos] +
new_rows, key=..., reverse=...)[:topk]` — the `extend` followed by the
sort-and-truncate assignment for a single query position. -/
def mergeOne (topk : Nat) (reverse : Bool) (acc new : List QueryResult) :
    List QueryResult :=
  (pySorted reverse (acc ++ new)).take topk

/-- Processing one non-tuple `files_collection` against the accumulated
`request_results`.  `enumerate(files_collection.topk_query_result)` touches
positions `0 .. len-1`: positions present in the collection are extended and
re-sorted (a fresh position starts from the `defaultdict` default `[]`),
positions beyond the collection's length are left unchanged.  Since keys are
always the initial segment `0 .. max-1`, the dict is represented positionally
(so the code's final `sorted(request_results.items())` is the identity). -/
def mergeStep (topk : Nat) (reverse : Bool) :
    List (List QueryResult) → List (List QueryResult) → List (List QueryResult)
  | acc, [] => acc
  | [], b :: bs => mergeOne topk reverse [] b :: mergeStep topk reverse [] bs
  | a :: as, b :: bs => mergeOne topk reverse a b :: mergeStep topk reverse as bs

/-- The `for files_collection in files_n_topk_results` loop of `_do_merge`:
a tuple-shaped element returns its status with an empty result list at once;
a result object is folded into `request_results`. -/
def doMergeLoop (topk : Nat) (reverse : Bool)
    (acc : List (List QueryResult)) :
    List FilesCollection → Status × List (List QueryResult)
  | [] => (statusSuccess, acc)
  | .err s _ :: _ => (s, [])
  | .ok bs :: rest => doMergeLoop topk reverse (mergeStep topk reverse acc bs) rest

/-- `ServiceHandler._do_merge`.  An empty input list returns the fresh
`Success` status and `[]`; otherwise the loop above runs, and on normal
completion the accumulated per-position blocks are emitted in position
order with the (still `Success`) status. -/
def doMerge (files_n_topk_results : List FilesCollection) (topk : Nat)
    (reverse : Bool) : Status × List (List QueryResult) :=
  match files_n_topk_results with
  | [] => (statusSuccess, [])
  | fs => doMergeLoop topk reverse [] fs

/-- `milvus.client.types.MetricType`, restricted to the two kinds the spec
describes; `_do_query` sets `reverse = (metric_type == MetricType.IP)`. -/
inductive MetricType where
  | L2
  | IP
deriving DecidableEq, Repr

/-- The table descriptor returned by `describe_table` and cached in
`ServiceHandler.table_meta`. -/
structure TableInfo where
  table_name : String
  dimension : Nat
  index_file_size : Nat
  metric_type : MetricType
deriving DecidableEq, Repr

/-- A `milvus_pb2.SearchParam` request as read by `Search`. -/
structure SearchRequest where
  table_name : String
  topk : Int
  nprobe : Int
  query_record_array : List (List ℚ)
  query_range_array : List (ℚ × ℚ)
deriving DecidableEq, Repr

/-- A backend interaction issued by the search path, recorded so that
"no backend call is issued" claims are statable. -/
inductive BackendCall where
  | describeTable (table : String)
  | routing (table : String)
  | searchFiles (addr : String) (table : String)
deriving DecidableEq, Repr

/-- Modelled from the spec: the `mishards.exceptions` module is not part of
the sources under verification; per the spec, validation failures
(`InvalidArgumentError`, `InvalidTopKError`) surface as `InvalidArgument`
and an unknown table (`TableNotFoundError`) surfaces as `NotFound`. -/
inductive RpcError where
  | invalidArgument
  | notFound
deriving DecidableEq, Repr

/-- The collaborators of the search path, as oracles: `describe_table` on a
backend connection, `router.routing`, and `search_vectors_in_files` on the
connection chosen for an address.  A sub-query that fails produces a
tuple-shaped (`FilesCollection.err`) element. -/
structure SearchEnv where
  describe_table : String → Status × TableInfo
  routing : String → List (ℚ × ℚ) → List (String × List Nat)
  search_vectors_in_files :
    String → String → List Nat → List (List ℚ) → Int → Int → FilesCollection

/-- `ServiceHandler._do_query`: build the routing plan, issue one sub-query
per plan entry (the thread pool joins on all of them; the shared list of
results is modelled in plan order), and merge with
`reverse = (metric_type == IP)`.  Returns the merge result together with
the trace of backend calls. -/
def doQuery (env : SearchEnv) (table_id : String) (table_meta : TableInfo)
    (vectors : List (List ℚ)) (topk nprobe : Int)
    (range_array : List (ℚ × ℚ)) :
    (Status × List (List QueryResult)) × List BackendCall :=
  let plan := env.routing table_id range_array
  let results := plan.map fun ap =>
    env.search_vectors_in_files ap.1 table_id ap.2 vectors topk nprobe
  let reverse := table_meta.metric_type = MetricType.IP
  (doMerge results topk.toNat reverse,
    BackendCall.routing table_id :: plan.map fun ap => BackendCall.searchFiles ap.1 table_id)

/-- `ServiceHandler.MAX_NPROBE`. -/
def MAX_NPROBE : Int := 2048

/-- `ServiceHandler.MAX_TOPK`. -/
def MAX_TOPK : Int := 2048

/-- `ServiceHandler.Search`: validate `nprobe` then `topk`; on a cache miss
call `describe_table` (raising `TableNotFoundError` if its status is not OK,
modelled as `RpcError.notFound`, before any cache write) and memoize the
descriptor; then run `_do_query` and wrap its status and results into the
response.  Returns (outcome, backend-call trace, updated descriptor cache). -/
def Search (env : SearchEnv) (cache : String → Option TableInfo)
    (request : SearchRequest) :
    (Status ⊕ RpcError) × List BackendCall × (String → Option TableInfo) ×
      List (List QueryResult) :=
  if request.nprobe > MAX_NPROBE ∨ request.nprobe ≤ 0 then
    (Sum.inr RpcError.invalidArgument, [], cache, [])
  else if request.topk > MAX_TOPK ∨ request.topk ≤ 0 then
    (Sum.inr RpcError.invalidArgument, [], cache, [])
  else
    match cache request.table_name with
    | some table_meta =>
      ((doQuery env request.table_name table_meta request.query_record_array
          request.topk request.nprobe request.query_range_array).1.1 |> Sum.inl,
        (doQuery env request.table_name table_meta request.query_record_array
          request.topk request.nprobe request.query_range_array).2,
        cache,
        (doQuery env request.table_name table_meta request.query_record_array
          request.topk request.nprobe request.query_range_array).1.2)
    | none =>
      if (env.describe_table request.table_name).1.error_code ≠ 0 then
        (Sum.inr RpcError.notFound, [BackendCall.describeTable request.table_name],
          cache, [])
      else
        ((doQuery env request.table_name (env.describe_table request.table_name).2
            request.query_record_array request.topk request.nprobe
            request.query_range_array).1.1 |> Sum.inl,
          BackendCall.describeTable request.table_name ::
            (doQuery env request.table_name (env.describe_table request.table_name).2
              request.query_record_array request.topk request.nprobe
              request.query_range_array).2,
          fun t => if t = request.table_name then
            some (env.describe_table request.table_name).2 else cache t,
          (doQuery env request.table_name (env.describe_table request.table_name).2
            request.query_record_array request.topk request.nprobe
            request.query_range_array).1.2)

/-- The specification's reference merge for one query position: take the
concatenation (in partial order) of the rows for that position, sort it by
distance — ascending for `L2`, descending for `IP` (`reverse`) — breaking
distance ties by the row's position in the concatenation (i.e. stably by
partial index, then by the row's original position within its partial),
and truncate to the first `topk` rows.  The tie-break is expressed by
decorating each row with its position and sorting by the injective order
`decLE`, whose sorted arrangement is unique. -/
def mergeReference (reverse : Bool) (topk : Nat) (rows : List QueryResult) :
    List QueryResult :=
  ((List.insertionSort (decLE (distKey reverse)) (dec 0 rows)).map Prod.snd).take topk

/-- The descriptor a validated `Search` ends up using: the cached one if
present, otherwise the one returned by a successful `describe_table`
(`none` when the lookup fails). -/
def resolveMeta (env : SearchEnv) (cache : String → Option TableInfo)
    (t : String) : Option TableInfo :=
  match cache t with
  | some m => some m
  | none =>
    if (env.describe_table t).1.error_code ≠ 0 then none
    else some (env.describe_table t).2

end Mishards

namespace StableSort

open List

variable {α γ : Type} [LinearOrder γ] {k : α → γ}

theorem decLE_key {x y : ℕ × α} (h : decLE k x y) : keyLE k x.2 y.2 := by
  rcases h with h | ⟨h, _⟩
  · exact le_of_lt h
  · exact le_of_eq h

theorem decLE_fst_eq {x y : ℕ × α} (h : decLE k x y) (h' : decLE k y x) :
    x.1 = y.1 := by
  rcases h with h | ⟨he, hi⟩ <;> rcases h' with h' | ⟨he', hi'⟩
  · exact absurd h' (lt_asymm h)
  · exact absurd h (he' ▸ lt_irrefl _)
  · exact absurd h' (he ▸ lt_irrefl _)
  · exact Nat.le_antisymm hi hi'

theorem not_decLE_of_fst_ne {x y : ℕ × α} (h : decLE k x y) (hne : x.1 ≠ y.1) :
    ¬ decLE k y x :=
  fun h' => hne (decLE_fst_eq h h')

theorem dec_map_snd (n : ℕ) : ∀ l : List α, (dec n l).map Prod.snd = l
  | [] => rfl
  | a :: l => by simp [dec, dec_map_snd (n + 1) l]

theorem dec_length (n : ℕ) : ∀ l : List α, (dec n l).length = l.length
  | [] => rfl
  | a :: l => by simp [dec, dec_length (n + 1) l]

theorem dec_append (n : ℕ) :
    ∀ l₁ l₂ : List α, dec n (l₁ ++ l₂) = dec n l₁ ++ dec (n + l₁.length) l₂
  | [], l₂ => by simp [dec]
  | a :: l₁, l₂ => by
    simp only [List.cons_append, dec, List.length_cons, List.append_eq]
    rw [dec_append (n + 1) l₁ l₂,
      show n + 1 + l₁.length = n + (l₁.length + 1) from by omega]

theorem mem_dec {x : ℕ × α} (n : ℕ) :
    ∀ l : List α, x ∈ dec n l → n ≤ x.1 ∧ x.1 < n + l.length
  | [], h => by cases h
  | a :: l, h => by
    rcases h with _ | h
    · simp
    · next h =>
      obtain ⟨h₁, h₂⟩ := mem_dec (n + 1) l h
      exact ⟨le_of_lt (Nat.lt_of_lt_of_le (Nat.lt_succ_self n) h₁), by
        simpa [Nat.succ_add] using h₂⟩

theorem dec_pairwise_fst (n : ℕ) :
    ∀ l : List α, (dec n l).Pairwise fun x y => x.1 < y.1
  | [] => List.Pairwise.nil
  | a :: l => by
    refine List.Pairwise.cons (fun y hy => ?_) (dec_pairwise_fst (n + 1) l)
    exact Nat.lt_of_lt_of_le (Nat.lt_succ_self n) (mem_dec (n + 1) l hy).1

theorem dec_nodup_fst (n : ℕ) (l : List α) : ((dec n l).map Prod.fst).Nodup := by
  rw [List.Nodup, List.pairwise_map]
  exact (dec_pairwise_fst n l).imp fun h => Nat.ne_of_lt h

theorem shiftIdx_dec (c n : ℕ) : ∀ l : List α, shiftIdx c (dec n l) = dec (n + c) l
  | [] => rfl
  | a :: l => by
    simp only [dec, shiftIdx, List.map_cons]
    rw [show n + c + 1 = n + 1 + c from by omega]
    exact congrArg _ (shiftIdx_dec c (n + 1) l)

theorem tieIdx_of_pairwise_fst {d : List (ℕ × α)}
    (h : d.Pairwise fun x y => x.1 < y.1) : TieIdx k d := by
  unfold TieIdx
  exact List.Pairwise.imp (fun {x y} h' (_ : k x.2 = k y.2) => h') h

theorem tieIdx_dec (n : ℕ) (l : List α) : TieIdx k (dec n l) :=
  tieIdx_of_pairwise_fst (dec_pairwise_fst n l)

theorem TieIdx.sublist {d₁ d₂ : List (ℕ × α)} (h : d₁ <+ d₂)
    (ht : TieIdx k d₂) : TieIdx k d₁ :=
  List.Pairwise.sublist h ht

theorem tieIdx_of_sorted_nodup {d : List (ℕ × α)}
    (hs : List.Sorted (decLE k) d) (hn : (d.map Prod.fst).Nodup) :
    TieIdx k d := by
  rw [List.Nodup, List.pairwise_map] at hn
  exact (List.Pairwise.and hs hn).imp fun ⟨hle, hne⟩ heq => by
    rcases hle with h | ⟨_, hi⟩
    · exact absurd heq h.ne
    · exact lt_of_le_of_ne hi hne

theorem tieIdx_append {d₁ d₂ : List (ℕ × α)} (h₁ : TieIdx k d₁)
    (h₂ : TieIdx k d₂) (hc : ∀ x ∈ d₁, ∀ y ∈ d₂, x.1 < y.1) :
    TieIdx k (d₁ ++ d₂) :=
  List.pairwise_append.mpr ⟨h₁, h₂, fun x hx y hy _ => hc x hx y hy⟩

/-- On decorated lists with pairwise-distinct indices, a `decLE`-sorted
arrangement of a given multiset of elements is unique. -/
theorem sorted_decLE_unique :
    ∀ {d₁ d₂ : List (ℕ × α)}, d₁ ~ d₂ → List.Sorted (decLE k) d₁ →
      List.Sorted (decLE k) d₂ → (d₁.map Prod.fst).Nodup → d₁ = d₂
  | [], d₂, hp, _, _, _ => (hp.nil_eq).symm ▸ rfl
  | a :: d₁, [], hp, _, _, _ => absurd hp.symm (by simp)
  | a :: d₁, b :: d₂, hp, hs₁, hs₂, hn => by
    have hab : a = b := by
      by_contra hne
      have ha : a ∈ b :: d₂ := hp.subset (List.mem_cons_self a d₁)
      have hb : b ∈ a :: d₁ := hp.symm.subset (List.mem_cons_self b d₂)
      have ha' : a ∈ d₂ := by
        rcases ha with _ | h
        · exact absurd rfl hne
        · assumption
      have hb' : b ∈ d₁ := by
        rcases hb with _ | h
        · exact absurd rfl (Ne.symm hne)
        · assumption
      have h₁ : decLE k a b := List.rel_of_sorted_cons hs₁ b hb'
      have h₂ : decLE k b a := List.rel_of_sorted_cons hs₂ a ha'
      have : a.1 = b.1 := decLE_fst_eq h₁ h₂
      have : a.1 ∈ d₁.map Prod.fst := this ▸ List.mem_map_of_mem Prod.fst hb'
      rw [List.map_cons, List.nodup_cons] at hn
      exact hn.1 this
    subst hab
    have hp' := hp.cons_inv
    rw [List.map_cons, List.nodup_cons] at hn
    exact congrArg _ (sorted_decLE_unique hp' hs₁.of_cons hs₂.of_cons hn.2)

/-- Inserting by key into the stripped list agrees with inserting by
`decLE` into the decorated list, provided the inserted element's index is
below that of every key-tied element of the list. -/
theorem orderedInsert_key_map {x : ℕ × α} :
    ∀ {m : List (ℕ × α)}, (∀ y ∈ m, k x.2 = k y.2 → x.1 < y.1) →
      List.orderedInsert (keyLE k) x.2 (m.map Prod.snd) =
        (List.orderedInsert (decLE k) x m).map Prod.snd
  | [], _ => rfl
  | y :: m, h => by
    have hiff : keyLE k x.2 y.2 ↔ decLE k x y := by
      constructor
      · intro hle
        rcases lt_or_eq_of_le hle with h' | h'
        · exact Or.inl h'
        · exact Or.inr ⟨h', le_of_lt (h y (List.mem_cons_self y m) h')⟩
      · exact decLE_key
    simp only [List.map_cons, List.orderedInsert]
    by_cases hc : decLE k x y
    · rw [if_pos hc, if_pos (hiff.mpr hc)]
      simp
    · rw [if_neg hc, if_neg fun hk => hc (hiff.mp hk), List.map_cons]
      exact congrArg _
        (orderedInsert_key_map fun y' hy' => h y' (List.mem_cons_of_mem y hy'))

/-- Stability of the embedded Python sort, expressed through decoration:
on a decorated list whose key-ties are in index order, sorting the stripped
list by key equals sorting the decorated list by `decLE` and stripping. -/
theorem insertionSort_key_map :
    ∀ {d : List (ℕ × α)}, TieIdx k d →
      List.insertionSort (keyLE k) (d.map Prod.snd) =
        (List.insertionSort (decLE k) d).map Prod.snd
  | [], _ => rfl
  | x :: d, ht => by
    have ht' := List.pairwise_cons.mp ht
    simp only [List.map_cons, List.insertionSort]
    rw [insertionSort_key_map ht'.2]
    exact orderedInsert_key_map fun y hy =>
      ht'.1 y ((List.perm_insertionSort (decLE k) d).subset hy)

/-- Sorting by `decLE` identifies permutations (indices pairwise distinct). -/
theorem sort_congr_perm {d d' : List (ℕ × α)} (hp : d ~ d')
    (h : (d.map Prod.fst).Nodup) :
    List.insertionSort (decLE k) d = List.insertionSort (decLE k) d' := by
  refine sorted_decLE_unique ?_ (List.sorted_insertionSort _ d)
    (List.sorted_insertionSort _ d') ?_
  · exact ((List.perm_insertionSort _ d).trans hp).trans
      (List.perm_insertionSort _ d').symm
  · exact (((List.perm_insertionSort (decLE k) d).map Prod.fst).nodup_iff).mpr h

/-- Sorted insertion of an element into the middle of a list, as an
`orderedInsert` into the sorted rest. -/
theorem sort_insert_middle {w : ℕ × α} {u C : List (ℕ × α)}
    (h : ((u ++ w :: C).map Prod.fst).Nodup) :
    List.insertionSort (decLE k) (u ++ w :: C) =
      List.orderedInsert (decLE k) w (List.insertionSort (decLE k) (u ++ C)) := by
  refine sorted_decLE_unique ?_ (List.sorted_insertionSort _ _)
    (List.Sorted.orderedInsert w _ (List.sorted_insertionSort _ _)) ?_
  · refine ((List.perm_insertionSort _ _).trans List.perm_middle).trans ?_
    exact ((List.perm_insertionSort (decLE k) (u ++ C)).symm.cons w).trans
      (List.perm_orderedInsert _ w _).symm
  · exact (((List.perm_insertionSort (decLE k) (u ++ w :: C)).map Prod.fst).nodup_iff).mpr h

/-- Inserting an element into a sorted list does not change the first `n`
elements when at least `n` elements of the list are strictly below it. -/
theorem take_orderedInsert_of_count {w : ℕ × α} {n : ℕ} :
    ∀ {S : List (ℕ × α)}, List.Sorted (decLE k) S →
      n ≤ S.countP (fun b => decide (¬ decLE k w b)) →
      (List.orderedInsert (decLE k) w S).take n = S.take n
  | [], _, hn => by
    simp only [List.countP_nil, Nat.le_zero] at hn
    subst hn
    rfl
  | y :: S, hs, hn => by
    by_cases hw : decLE k w y
    · have hc : (y :: S).countP (fun b => decide (¬ decLE k w b)) = 0 := by
        rw [List.countP_eq_zero]
        intro b hb
        rcases hb with _ | hb
        · simpa using hw
        · next hb =>
          simpa using trans_of (decLE k) hw (List.rel_of_sorted_cons hs b hb)
      rw [hc, Nat.le_zero] at hn
      subst hn
      rfl
    · rw [List.orderedInsert, if_neg hw]
      match n with
      | 0 => rfl
      | n + 1 =>
        rw [List.countP_cons, if_pos (by simpa using hw)] at hn
        rw [List.take_succ_cons, List.take_succ_cons]
        exact congrArg _ (take_orderedInsert_of_count hs.of_cons (by omega))

/-- Dropping one element that at least `n` elements of `u` are strictly
below does not change the first `n` elements of the sort. -/
theorem sort_take_drop_one {w : ℕ × α} {u C : List (ℕ × α)} {n : ℕ}
    (h : ((u ++ w :: C).map Prod.fst).Nodup)
    (hn : n ≤ u.countP (fun b => decide (¬ decLE k w b))) :
    (List.insertionSort (decLE k) (u ++ w :: C)).take n =
      (List.insertionSort (decLE k) (u ++ C)).take n := by
  rw [sort_insert_middle h]
  refine take_orderedInsert_of_count (List.sorted_insertionSort _ _) ?_
  rw [(List.perm_insertionSort (decLE k) (u ++ C)).countP_eq, List.countP_append]
  omega

/-- Dropping a batch of elements, each with at least `n` elements of `u`
strictly below it, does not change the first `n` elements of the sort. -/
theorem sort_take_drop_batch {u : List (ℕ × α)} {n : ℕ} :
    ∀ {v C : List (ℕ × α)}, ((u ++ (v ++ C)).map Prod.fst).Nodup →
      (∀ w ∈ v, n ≤ u.countP (fun b => decide (¬ decLE k w b))) →
      (List.insertionSort (decLE k) (u ++ (v ++ C))).take n =
        (List.insertionSort (decLE k) (u ++ C)).take n
  | [], _, _, _ => by rw [List.nil_append]
  | w :: v, C, h, hv => by
    have h₂ : ((u ++ (w :: (v ++ C))).map Prod.fst).Nodup := by simpa using h
    have h' : ((u ++ (v ++ C)).map Prod.fst).Nodup := by
      refine List.Sublist.nodup (List.Sublist.map Prod.fst ?_) h₂
      exact (List.sublist_cons_self w (v ++ C)).append_left u
    rw [List.cons_append,
      sort_take_drop_one h₂ (hv w (List.mem_cons_self w v)),
      sort_take_drop_batch h' fun w' hw' => hv w' (List.mem_cons_of_mem w hw')]

/-- Variant of `sort_take_drop_batch` removing a trailing batch. -/
theorem sort_take_drop_tail {u v : List (ℕ × α)} {n : ℕ}
    (h : ((u ++ v).map Prod.fst).Nodup)
    (hv : ∀ w ∈ v, n ≤ u.countP (fun b => decide (¬ decLE k w b))) :
    (List.insertionSort (decLE k) (u ++ v)).take n =
      (List.insertionSort (decLE k) u).take n := by
  have h' : ((u ++ (v ++ [])).map Prod.fst).Nodup := by simpa using h
  have := sort_take_drop_batch h' hv
  simpa using this

/-- Appending two decorated lists whose index ranges are separated keeps
the indices pairwise distinct. -/
theorem nodup_fst_append {d₁ d₂ : List (ℕ × α)} (h₁ : (d₁.map Prod.fst).Nodup)
    (h₂ : (d₂.map Prod.fst).Nodup) (hb : ∀ x ∈ d₁, ∀ y ∈ d₂, x.1 < y.1) :
    ((d₁ ++ d₂).map Prod.fst).Nodup := by
  rw [List.map_append, List.nodup_append]
  refine ⟨h₁, h₂, ?_⟩
  intro a ha ha'
  obtain ⟨x, hx, rfl⟩ := List.mem_map.mp ha
  obtain ⟨y, hy, he⟩ := List.mem_map.mp ha'
  exact absurd he (Nat.ne_of_lt (hb x hx y hy)).symm

/-- In a sorted decorated list with distinct indices, no dropped element is
`decLE`-below a kept one. -/
theorem sorted_nodup_cross {t : List (ℕ × α)} {n : ℕ}
    (hs : List.Sorted (decLE k) t) (hn : (t.map Prod.fst).Nodup) :
    ∀ w ∈ t.drop n, ∀ a ∈ t.take n, ¬ decLE k w a := by
  intro w hw a ha
  have h1 : decLE k a w := List.Sorted.rel_of_mem_take_of_mem_drop hs ha hw
  have hne : a.1 ≠ w.1 := by
    rw [← List.take_append_drop n t, List.map_append, List.nodup_append] at hn
    intro he
    refine hn.2.2 (List.mem_map_of_mem Prod.fst ha) ?_
    rw [he]
    exact List.mem_map_of_mem Prod.fst hw
  exact not_decLE_of_fst_ne h1 hne

/-- Truncating the sorted first operand to `n` before re-sorting does not
change the first `n` elements of the sort of the concatenation. -/
theorem sort_take_truncL {t B : List (ℕ × α)} {n : ℕ}
    (hs : List.Sorted (decLE k) t) (h : ((t ++ B).map Prod.fst).Nodup) :
    (List.insertionSort (decLE k) (t.take n ++ B)).take n =
      (List.insertionSort (decLE k) (t ++ B)).take n := by
  by_cases hle : t.length ≤ n
  · rw [List.take_of_length_le hle]
  · have hnt : (t.map Prod.fst).Nodup := by
      rw [List.map_append, List.nodup_append] at h
      exact h.1
    have hcross := sorted_nodup_cross (n := n) hs hnt
    have heq : t ++ B = t.take n ++ (t.drop n ++ B) := by
      rw [← List.append_assoc, List.take_append_drop]
    rw [heq] at h ⊢
    refine (sort_take_drop_batch h ?_).symm
    intro w hw
    have hall : ∀ a ∈ t.take n, (fun b => decide (¬ decLE k w b)) a = true := by
      intro a ha
      simpa using hcross w hw a ha
    have hc : (t.take n).countP (fun b => decide (¬ decLE k w b)) = n := by
      rw [List.countP_eq_length.mpr hall, List.length_take]
      omega
    omega

/-- Truncating the sorted second operand to `n` before re-sorting does not
change the first `n` elements of the sort of the concatenation. -/
theorem sort_take_truncR {A t : List (ℕ × α)} {n : ℕ}
    (hs : List.Sorted (decLE k) t) (h : ((A ++ t).map Prod.fst).Nodup) :
    (List.insertionSort (decLE k) (A ++ t.take n)).take n =
      (List.insertionSort (decLE k) (A ++ t)).take n := by
  by_cases hle : t.length ≤ n
  · rw [List.take_of_length_le hle]
  · have hnt : (t.map Prod.fst).Nodup := by
      rw [List.map_append, List.nodup_append] at h
      exact h.2.1
    have hcross := sorted_nodup_cross (n := n) hs hnt
    have heq : A ++ t = (A ++ t.take n) ++ t.drop n := by
      rw [List.append_assoc, List.take_append_drop]
    rw [heq] at h ⊢
    refine (sort_take_drop_tail h ?_).symm
    intro w hw
    rw [List.countP_append]
    have hall : ∀ a ∈ t.take n, (fun b => decide (¬ decLE k w b)) a = true := by
      intro a ha
      simpa using hcross w hw a ha
    have hc : (t.take n).countP (fun b => decide (¬ decLE k w b)) = n := by
      rw [List.countP_eq_length.mpr hall, List.length_take]
      omega
    omega

theorem nodup_fst_sort {d : List (ℕ × α)} (h : (d.map Prod.fst).Nodup) :
    ((List.insertionSort (decLE k) d).map Prod.fst).Nodup :=
  (((List.perm_insertionSort (decLE k) d).map Prod.fst).nodup_iff).mpr h

theorem mem_sort_dec_bounds {c : ℕ} {X : List α} {x : ℕ × α}
    (hx : x ∈ List.insertionSort (decLE k) (dec c X)) :
    c ≤ x.1 ∧ x.1 < c + X.length :=
  mem_dec c X ((List.perm_insertionSort _ _).subset hx)

/-- `keySortTake` does not depend on the decoration offset. -/
theorem keySortTake_offset (c n : ℕ) (Y : List α) :
    keySortTake k n Y =
      ((List.insertionSort (decLE k) (dec c Y)).take n).map Prod.snd := by
  have hshift : dec c Y = (dec 0 Y).map fun x => (x.1 + c, x.2) := by
    rw [show (dec 0 Y).map (fun x => (x.1 + c, x.2)) = shiftIdx c (dec 0 Y) from rfl,
      shiftIdx_dec, Nat.zero_add]
  have hmap := List.map_insertionSort (r := decLE k) (s := decLE k)
    (fun x : ℕ × α => (x.1 + c, x.2)) (dec 0 Y) ?_
  · rw [hshift, ← hmap, ← List.map_take, List.map_map, keySortTake, List.map_take]
    congr 1
  · intro a _ b _
    dsimp only
    constructor
    · intro h
      rcases h with h | ⟨he, hi⟩
      · exact Or.inl h
      · exact Or.inr ⟨he, by omega⟩
    · intro h
      rcases h with h | ⟨he, hi⟩
      · exact Or.inl h
      · exact Or.inr ⟨he, by omega⟩

theorem keySortTake_nil (n : ℕ) : keySortTake k n ([] : List α) = [] := by
  rw [keySortTake]
  simp [dec]

theorem keySortTake_length_le (n : ℕ) (X : List α) :
    (keySortTake k n X).length ≤ n := by
  rw [keySortTake]
  exact (List.length_take_le _ _)

theorem keySortTake_sorted (n : ℕ) (X : List α) :
    List.Sorted (keyLE k) (keySortTake k n X) := by
  rw [keySortTake]
  refine List.Pairwise.sublist (List.take_sublist _ _) ?_
  rw [List.pairwise_map]
  exact (List.sorted_insertionSort (decLE k) (dec 0 X)).imp decLE_key

/-- One incremental step of the code's merge — stable-sort the truncated
accumulator together with a raw block, truncate to `n` — lands on the
canonical truncated stable sort of the concatenation. -/
theorem keySortTake_step (n : ℕ) (X b : List α) :
    (List.insertionSort (keyLE k) (keySortTake k n X ++ b)).take n =
      keySortTake k n (X ++ b) := by
  have hTn : ((List.insertionSort (decLE k) (dec 0 X)).map Prod.fst).Nodup :=
    nodup_fst_sort (dec_nodup_fst 0 X)
  have hT : List.Sorted (decLE k) (List.insertionSort (decLE k) (dec 0 X)) :=
    List.sorted_insertionSort _ _
  have hsnd : keySortTake k n X ++ b =
      ((List.insertionSort (decLE k) (dec 0 X)).take n ++ dec X.length b).map Prod.snd := by
    rw [List.map_append, keySortTake, ← List.map_take, dec_map_snd]
  have hcross : ∀ x ∈ (List.insertionSort (decLE k) (dec 0 X)).take n,
      ∀ y ∈ dec X.length b, x.1 < y.1 := by
    intro x hx y hy
    have hx' := mem_sort_dec_bounds (List.mem_of_mem_take hx)
    have hy' := mem_dec X.length b hy
    omega
  have htie : TieIdx k
      ((List.insertionSort (decLE k) (dec 0 X)).take n ++ dec X.length b) := by
    refine tieIdx_append ?_ (tieIdx_dec _ _) hcross
    exact TieIdx.sublist (List.take_sublist _ _) (tieIdx_of_sorted_nodup hT hTn)
  have hnod : ((List.insertionSort (decLE k) (dec 0 X) ++ dec X.length b).map
      Prod.fst).Nodup := by
    refine nodup_fst_append hTn (dec_nodup_fst _ _) ?_
    intro x hx y hy
    have hx' := mem_sort_dec_bounds hx
    have hy' := mem_dec X.length b hy
    omega
  have hperm : List.insertionSort (decLE k) (dec 0 X) ++ dec X.length b ~
      dec 0 X ++ dec X.length b :=
    (List.perm_insertionSort (decLE k) (dec 0 X)).append_right _
  rw [hsnd, insertionSort_key_map htie, ← List.map_take, sort_take_truncL hT hnod,
    sort_congr_perm hperm hnod,
    show dec X.length b = dec (0 + X.length) b from by rw [Nat.zero_add],
    ← dec_append, keySortTake, List.map_take]

/-- Merging two canonical truncated stable sorts by a further stable sort
and truncation lands on the canonical truncated stable sort of the
concatenation. -/
theorem keySortTake_absorb (n : ℕ) (X Y : List α) :
    (List.insertionSort (keyLE k) (keySortTake k n X ++ keySortTake k n Y)).take n =
      keySortTake k n (X ++ Y) := by
  have hTn : ((List.insertionSort (decLE k) (dec 0 X)).map Prod.fst).Nodup :=
    nodup_fst_sort (dec_nodup_fst 0 X)
  have hT : List.Sorted (decLE k) (List.insertionSort (decLE k) (dec 0 X)) :=
    List.sorted_insertionSort _ _
  have hUn : ((List.insertionSort (decLE k) (dec X.length Y)).map Prod.fst).Nodup :=
    nodup_fst_sort (dec_nodup_fst X.length Y)
  have hU : List.Sorted (decLE k) (List.insertionSort (decLE k) (dec X.length Y)) :=
    List.sorted_insertionSort _ _
  have hsnd : keySortTake k n X ++ keySortTake k n Y =
      ((List.insertionSort (decLE k) (dec 0 X)).take n ++
        (List.insertionSort (decLE k) (dec X.length Y)).take n).map Prod.snd := by
    rw [List.map_append, keySortTake, keySortTake_offset X.length n Y,
      ← List.map_take]
  have hcross : ∀ x ∈ (List.insertionSort (decLE k) (dec 0 X)).take n,
      ∀ y ∈ (List.insertionSort (decLE k) (dec X.length Y)).take n, x.1 < y.1 := by
    intro x hx y hy
    have hx' := mem_sort_dec_bounds (List.mem_of_mem_take hx)
    have hy' := mem_sort_dec_bounds (List.mem_of_mem_take hy)
    omega
  have htie : TieIdx k
      ((List.insertionSort (decLE k) (dec 0 X)).take n ++
        (List.insertionSort (decLE k) (dec X.length Y)).take n) := by
    refine tieIdx_append ?_ ?_ hcross
    · exact TieIdx.sublist (List.take_sublist _ _) (tieIdx_of_sorted_nodup hT hTn)
    · exact TieIdx.sublist (List.take_sublist _ _) (tieIdx_of_sorted_nodup hU hUn)
  have hcross' : ∀ x ∈ List.insertionSort (decLE k) (dec 0 X),
      ∀ y ∈ List.insertionSort (decLE k) (dec X.length Y), x.1 < y.1 := by
    intro x hx y hy
    have hx' := mem_sort_dec_bounds hx
    have hy' := mem_sort_dec_bounds hy
    omega
  have hnod : ((List.insertionSort (decLE k) (dec 0 X) ++
      List.insertionSort (decLE k) (dec X.length Y)).map Prod.fst).Nodup :=
    nodup_fst_append hTn hUn hcross'
  have hnodL : ((List.insertionSort (decLE k) (dec 0 X) ++
      (List.insertionSort (decLE k) (dec X.length Y)).take n).map Prod.fst).Nodup := by
    refine nodup_fst_append hTn
      (List.Sublist.nodup (List.Sublist.map Prod.fst (List.take_sublist _ _)) hUn) ?_
    intro x hx y hy
    exact hcross' x hx y (List.mem_of_mem_take hy)
  have hperm : List.insertionSort (decLE k) (dec 0 X) ++
      List.insertionSort (decLE k) (dec X.length Y) ~
      dec 0 X ++ dec X.length Y :=
    (List.perm_insertionSort (decLE k) (dec 0 X)).append
      (List.perm_insertionSort (decLE k) (dec X.length Y))
  rw [hsnd, insertionSort_key_map htie, ← List.map_take, sort_take_truncL hT hnodL,
    sort_take_truncR hU hnod, sort_congr_perm hperm hnod,
    show dec X.length Y = dec (0 + X.length) Y from by rw [Nat.zero_add],
    ← dec_append, keySortTake, List.map_take]

/-- The code's incremental fold — start from a truncated stable sort,
repeatedly append a block, stable-sort, truncate — computes the canonical
truncated stable sort of the full concatenation. -/
theorem keySortTake_foldl (n : ℕ) :
    ∀ (bs : List (List α)) (X : List α),
      bs.foldl (fun acc b => (List.insertionSort (keyLE k) (acc ++ b)).take n)
        (keySortTake k n X) = keySortTake k n (X ++ bs.flatten)
  | [], X => by simp
  | b :: bs, X => by
    rw [List.foldl_cons, keySortTake_step n X b, keySortTake_foldl n bs (X ++ b),
      List.flatten_cons, ← List.append_assoc]

end StableSort

namespace Mishards

open StableSort

theorem mergeReference_eq (reverse : Bool) (topk : Nat) (rows : List QueryResult) :
    mergeReference reverse topk rows = keySortTake (distKey reverse) topk rows := rfl

theorem mergeOne_eq (topk : Nat) (reverse : Bool) :
    mergeOne topk reverse = fun acc new =>
      (List.insertionSort (keyLE (distKey reverse)) (acc ++ new)).take topk := rfl

theorem mergeReference_length_le (reverse : Bool) (topk : Nat)
    (rows : List QueryResult) : (mergeReference reverse topk rows).length ≤ topk :=
  keySortTake_length_le topk rows

theorem mergeReference_sorted (reverse : Bool) (topk : Nat)
    (rows : List QueryResult) :
    List.Sorted (keyLE (distKey reverse)) (mergeReference reverse topk rows) :=
  keySortTake_sorted topk rows

theorem mergeReference_nil (reverse : Bool) (topk : Nat) :
    mergeReference reverse topk [] = [] :=
  keySortTake_nil topk

/-- Folding the code's per-position step over a list of row blocks computes
the reference merge of their concatenation. -/
theorem foldl_mergeOne_eq (topk : Nat) (reverse : Bool)
    (bls : List (List QueryResult)) :
    bls.foldl (mergeOne topk reverse) [] = mergeReference reverse topk bls.flatten := by
  have h := keySortTake_foldl (k := distKey reverse) topk bls []
  rw [keySortTake_nil, List.nil_append] at h
  rw [mergeOne_eq, mergeReference_eq]
  exact h

theorem mergeStep_length (topk : Nat) (reverse : Bool) :
    ∀ acc b : List (List QueryResult),
      (mergeStep topk reverse acc b).length = max acc.length b.length
  | acc, [] => by simp [mergeStep]
  | [], b :: bs => by
    simp [mergeStep, mergeStep_length topk reverse [] bs]
  | a :: as, b :: bs => by
    simp [mergeStep, mergeStep_length topk reverse as bs]
    omega

theorem mergeStep_getElem? (topk : Nat) (reverse : Bool) :
    ∀ (acc b : List (List QueryResult)) (p : Nat),
      (mergeStep topk reverse acc b)[p]? =
        if p < b.length then
          some (mergeOne topk reverse (acc[p]?.getD []) (b[p]?.getD []))
        else acc[p]?
  | acc, [], p => by simp [mergeStep]
  | [], b :: bs, 0 => by simp [mergeStep]
  | [], b :: bs, p + 1 => by
    have h := mergeStep_getElem? topk reverse [] bs p
    simp only [mergeStep, List.getElem?_cons_succ, List.length_cons, h]
    by_cases hp : p < bs.length
    · rw [if_pos hp, if_pos (by omega)]
      simp
    · rw [if_neg hp, if_neg (by omega)]
      simp
  | a :: as, b :: bs, 0 => by simp [mergeStep]
  | a :: as, b :: bs, p + 1 => by
    have h := mergeStep_getElem? topk reverse as bs p
    simp only [mergeStep, List.getElem?_cons_succ, List.length_cons, h]
    by_cases hp : p < bs.length
    · rw [if_pos hp, if_pos (by omega)]
    · rw [if_neg hp, if_neg (by omega)]

/-- The loop of `_do_merge` over tuple-free collections of a common block
count `nq`: it keeps the `Success` status, keeps `nq` positions, and each
position folds the per-collection blocks into the accumulator. -/
theorem doMergeLoop_ok (topk : Nat) (reverse : Bool) (nq : Nat) :
    ∀ (fs : List FilesCollection) (acc : List (List QueryResult)),
      (∀ f ∈ fs, f.isTuple = false ∧ f.blocks.length = nq) → acc.length = nq →
      (doMergeLoop topk reverse acc fs).1 = statusSuccess ∧
      (doMergeLoop topk reverse acc fs).2.length = nq ∧
      ∀ p : Nat, (doMergeLoop topk reverse acc fs).2[p]? =
        acc[p]?.map fun a =>
          (fs.map fun f => f.blocks[p]?.getD []).foldl (mergeOne topk reverse) a
  | [], acc, _, hacc => ⟨rfl, hacc, by simp [doMergeLoop]⟩
  | .err s pay :: rest, acc, hok, _ => by
    have := (hok _ (List.mem_cons_self _ rest)).1
    simp [FilesCollection.isTuple] at this
  | .ok bs :: rest, acc, hok, hacc => by
    have hbs : bs.length = nq := (hok _ (List.mem_cons_self _ rest)).2
    have hacc' : (mergeStep topk reverse acc bs).length = nq := by
      rw [mergeStep_length, hacc, hbs]
      omega
    have hrest : ∀ f ∈ rest, f.isTuple = false ∧ f.blocks.length = nq :=
      fun f hf => hok f (List.mem_cons_of_mem _ hf)
    obtain ⟨h1, h2, h3⟩ := doMergeLoop_ok topk reverse nq rest
      (mergeStep topk reverse acc bs) hrest hacc'
    refine ⟨h1, h2, fun p => ?_⟩
    rw [show doMergeLoop topk reverse acc (.ok bs :: rest) =
      doMergeLoop topk reverse (mergeStep topk reverse acc bs) rest from rfl]
    rw [h3 p, mergeStep_getElem?]
    by_cases hp : p < nq
    · rw [if_pos (hbs ▸ hp)]
      have hsome : acc[p]? = some acc[p] := List.getElem?_eq_getElem (hacc ▸ hp)
      rw [hsome]
      simp [FilesCollection.blocks, List.foldl_cons]
    · rw [if_neg (hbs ▸ hp)]
      have hnone : acc[p]? = none := List.getElem?_eq_none (by omega)
      rw [hnone]
      simp

/-- `_do_merge` on a nonempty list of tuple-free collections, each with
`nq` blocks: status is `Success`, the output has `nq` blocks, and block `p`
is the reference merge of the concatenation of the collections' `p`-th
blocks, in collection order. -/
theorem doMerge_ok (topk : Nat) (reverse : Bool) (nq : Nat)
    (fs : List FilesCollection) (hne : fs ≠ [])
    (hok : ∀ f ∈ fs, f.isTuple = false ∧ f.blocks.length = nq) :
    (doMerge fs topk reverse).1 = statusSuccess ∧
    (doMerge fs topk reverse).2.length = nq ∧
    ∀ p : Nat, (doMerge fs topk reverse).2[p]? =
      if p < nq then
        some (mergeReference reverse topk
          ((fs.map fun f => f.blocks[p]?.getD []).flatten))
      else none := by
  match fs, hne with
  | .err s pay :: rest, _ =>
    have := (hok _ (List.mem_cons_self _ rest)).1
    simp [FilesCollection.isTuple] at this
  | .ok bs :: rest, _ =>
    have hbs : bs.length = nq := (hok _ (List.mem_cons_self _ rest)).2
    have hacc' : (mergeStep topk reverse [] bs).length = nq := by
      rw [mergeStep_length, hbs, List.length_nil]
      omega
    have hrest : ∀ f ∈ rest, f.isTuple = false ∧ f.blocks.length = nq :=
      fun f hf => hok f (List.mem_cons_of_mem _ hf)
    obtain ⟨h1, h2, h3⟩ := doMergeLoop_ok topk reverse nq rest
      (mergeStep topk reverse [] bs) hrest hacc'
    have hun : doMerge (.ok bs :: rest) topk reverse =
        doMergeLoop topk reverse (mergeStep topk reverse [] bs) rest := rfl
    refine ⟨hun ▸ h1, hun ▸ h2, fun p => ?_⟩
    rw [hun, h3 p, mergeStep_getElem?]
    by_cases hp : p < nq
    · rw [if_pos (hbs ▸ hp), if_pos hp]
      simp only [List.getElem?_nil, Option.getD_none, Option.map_some]
      rw [List.map_cons, show (FilesCollection.ok bs).blocks = bs from rfl,
        ← foldl_mergeOne_eq topk reverse (bs[p]?.getD [] ::
          (rest.map fun f => f.blocks[p]?.getD [])), List.foldl_cons]
      simp
    · rw [if_neg (hbs ▸ hp), if_neg hp]
      simp

end Mishards

namespace StableSort

open List

variable {α γ : Type} [LinearOrder γ] {k : α → γ}

/-- The two-level fold: folding already-merged (canonically sorted and
truncated) group results into an accumulator of the same shape. -/
theorem keySortTake_foldl_merged (n : ℕ) :
    ∀ (Xs : List (List α)) (Z : List α),
      (Xs.map (keySortTake k n)).foldl
        (fun acc b => (List.insertionSort (keyLE k) (acc ++ b)).take n)
        (keySortTake k n Z) = keySortTake k n (Z ++ Xs.flatten)
  | [], Z => by simp
  | X :: Xs, Z => by
    rw [List.map_cons, List.foldl_cons, keySortTake_absorb n Z X,
      keySortTake_foldl_merged n Xs (Z ++ X), List.flatten_cons,
      ← List.append_assoc]

/-- Re-merging canonically merged groups agrees with merging everything
at once. -/
theorem keySortTake_flatten_map (n : ℕ) (Xs : List (List α)) :
    keySortTake k n ((Xs.map (keySortTake k n)).flatten) =
      keySortTake k n Xs.flatten := by
  have h1 := keySortTake_foldl (k := k) n (Xs.map (keySortTake k n)) []
  have h2 := keySortTake_foldl_merged (k := k) n Xs []
  rw [keySortTake_nil] at h1 h2
  rw [List.nil_append] at h1 h2
  rw [← h1, ← h2]

end StableSort

namespace Mishards

open StableSort

/-- The loop of `_do_merge` over tuple-free collections of arbitrary block
counts: the status stays `Success` and the number of positions grows to
the running maximum of the collections' block counts. -/
theorem doMergeLoop_no_tuple (topk : Nat) (reverse : Bool) :
    ∀ (fs : List FilesCollection) (acc : List (List QueryResult)),
      (∀ f ∈ fs, f.isTuple = false) →
      (doMergeLoop topk reverse acc fs).1 = statusSuccess ∧
      (doMergeLoop topk reverse acc fs).2.length =
        fs.foldl (fun m f => max m f.blocks.length) acc.length
  | [], _, _ => ⟨rfl, rfl⟩
  | .err s pay :: rest, acc, hok => by
    have := hok _ (List.mem_cons_self _ rest)
    simp [FilesCollection.isTuple] at this
  | .ok bs :: rest, acc, hok => by
    obtain ⟨h1, h2⟩ := doMergeLoop_no_tuple topk reverse rest
      (mergeStep topk reverse acc bs)
      (fun f hf => hok f (List.mem_cons_of_mem _ hf))
    refine ⟨h1, ?_⟩
    rw [show doMergeLoop topk reverse acc (.ok bs :: rest) =
      doMergeLoop topk reverse (mergeStep topk reverse acc bs) rest from rfl,
      h2, mergeStep_length, List.foldl_cons]
    rfl

/-- The loop of `_do_merge` returns the status of the first tuple-shaped
element, paired with an empty result list, whatever was accumulated. -/
theorem doMergeLoop_first_tuple (topk : Nat) (reverse : Bool) (s : Status)
    (pay : List (List QueryResult)) (rest : List FilesCollection) :
    ∀ (pre : List FilesCollection) (acc : List (List QueryResult)),
      (∀ f ∈ pre, f.isTuple = false) →
      doMergeLoop topk reverse acc (pre ++ .err s pay :: rest) = (s, [])
  | [], _, _ => rfl
  | .err s' pay' :: pre, acc, h => by
    have := h _ (List.mem_cons_self _ pre)
    simp [FilesCollection.isTuple] at this
  | .ok bs :: pre, acc, h => by
    rw [List.cons_append]
    exact doMergeLoop_first_tuple topk reverse s pay rest pre
      (mergeStep topk reverse acc bs)
      (fun f hf => h f (List.mem_cons_of_mem _ hf))

/-- `_do_merge` returns the status of the first tuple-shaped element of its
input together with an empty result list, discarding everything else. -/
theorem doMerge_first_tuple (topk : Nat) (reverse : Bool) (s : Status)
    (pay : List (List QueryResult)) (rest pre : List FilesCollection)
    (h : ∀ f ∈ pre, f.isTuple = false) :
    doMerge (pre ++ .err s pay :: rest) topk reverse = (s, []) := by
  cases pre with
  | nil => exact doMergeLoop_first_tuple topk reverse s pay rest [] [] h
  | cons f pre' =>
    rw [List.cons_append,
      show doMerge (f :: (pre' ++ .err s pay :: rest)) topk reverse =
        doMergeLoop topk reverse [] (f :: (pre' ++ .err s pay :: rest)) from rfl,
      ← List.cons_append]
    exact doMergeLoop_first_tuple topk reverse s pay rest (f :: pre') [] h

/-- A validated `Search` whose descriptor resolves runs `_do_query` on the
resolved descriptor and wraps its status and results into the response. -/
theorem Search_run (env : SearchEnv) (cache : String → Option TableInfo)
    (request : SearchRequest) (m : TableInfo)
    (hnp : 0 < request.nprobe ∧ request.nprobe ≤ MAX_NPROBE)
    (htk : 0 < request.topk ∧ request.topk ≤ MAX_TOPK)
    (hm : resolveMeta env cache request.table_name = some m) :
    (Search env cache request).1 =
      Sum.inl (doQuery env request.table_name m request.query_record_array
        request.topk request.nprobe request.query_range_array).1.1 ∧
    (Search env cache request).2.2.2 =
      (doQuery env request.table_name m request.query_record_array
        request.topk request.nprobe request.query_range_array).1.2 := by
  have h1 : ¬(request.nprobe > MAX_NPROBE ∨ request.nprobe ≤ 0) := by
    unfold MAX_NPROBE at hnp ⊢
    omega
  have h2 : ¬(request.topk > MAX_TOPK ∨ request.topk ≤ 0) := by
    unfold MAX_TOPK at htk ⊢
    omega
  unfold Search
  rw [if_neg h1, if_neg h2]
  unfold resolveMeta at hm
  cases hc : cache request.table_name with
  | some m' =>
    rw [hc] at hm
    have hm' : m' = m := by simpa using hm
    subst hm'
    exact ⟨rfl, rfl⟩
  | none =>
    rw [hc] at hm
    by_cases hok : (env.describe_table request.table_name).1.error_code ≠ 0
    · rw [if_pos hok] at hm
      exact absurd hm (by simp)
    · rw [if_neg hok] at hm
      have hm' : (env.describe_table request.table_name).2 = m := by simpa using hm
      subst hm'
      rw [if_neg hok]
      exact ⟨rfl, rfl⟩

end Mishards

namespace Mishards

open StableSort

/-- C1: For every list of partials in which each partial holds `nq` blocks
and no partial is an error-shaped `(status, payload)` tuple, and for every
query position `p < nq`, the merged output block at position `p` equals
the concatenation of all partials' blocks at position `p` (in partial
order), sorted by distance — ascending when the metric is `L2`
(`reverse = false`), descending when it is `IP` (`reverse = true`) — with
ties on distance broken stably by partial index and then by the row's
original position within its partial, truncated to the first `topk` rows
(`mergeReference`). -/
theorem merge_block_eq_reference (topk : Nat) (reverse : Bool) (nq : Nat)
    (fs : List FilesCollection) (p : Nat) (hne : fs ≠ [])
    (hok : ∀ f ∈ fs, f.isTuple = false ∧ f.blocks.length = nq)
    (hp : p < nq) :
    (doMerge fs topk reverse).2[p]? =
      some (mergeReference reverse topk
        ((fs.map fun f => f.blocks[p]?.getD []).flatten)) := by
  rw [(doMerge_ok topk reverse nq fs hne hok).2.2 p, if_pos hp]

/-- Witness for C1: the spec's two-shard `L2` scenario (`K = 2`). -/
theorem merge_block_eq_reference_witness :
    (([FilesCollection.ok [[⟨1, 2⟩, ⟨2, 8⟩]],
       FilesCollection.ok [[⟨3, 3⟩, ⟨4, 5⟩]]] : List FilesCollection) ≠ [] ∧
     (∀ f ∈ ([FilesCollection.ok [[⟨1, 2⟩, ⟨2, 8⟩]],
       FilesCollection.ok [[⟨3, 3⟩, ⟨4, 5⟩]]] : List FilesCollection),
        f.isTuple = false ∧ f.blocks.length = 1) ∧ 0 < 1) ∧
    (doMerge [FilesCollection.ok [[⟨1, 2⟩, ⟨2, 8⟩]],
      FilesCollection.ok [[⟨3, 3⟩, ⟨4, 5⟩]]] 2 false).2[0]? =
      some (mergeReference false 2
        ((([FilesCollection.ok [[⟨1, 2⟩, ⟨2, 8⟩]],
            FilesCollection.ok [[⟨3, 3⟩, ⟨4, 5⟩]]] : List FilesCollection).map
          fun f => f.blocks[0]?.getD []).flatten)) :=
  ⟨⟨by decide, by decide, by decide⟩,
    merge_block_eq_reference 2 false 1 _ 0 (by decide) (by decide) (by decide)⟩

/-- C3 counterexample: `_do_merge` short-circuits on the first
tuple-shaped element regardless of its status code, so with a
`Success`-carrying tuple ahead of an `Error`-carrying one, the returned
status is `Success`, not the status of the first error-bearing partial. -/
theorem merge_first_tuple_not_first_error :
    doMerge [FilesCollection.err statusSuccess [],
      FilesCollection.err ⟨1, "Error"⟩ []] 10 false = (statusSuccess, []) ∧
    statusSuccess ≠ (⟨1, "Error"⟩ : Status) :=
  ⟨rfl, by decide⟩

/-- C3 (amended): `_do_merge` returns the status of the first tuple-shaped
element of its input — whatever that status's code — as the overall
status, with an empty result list; in particular, when the first
tuple-shaped element is the first error-bearing partial, that error is
propagated and the result list is empty. -/
theorem merge_returns_first_tuple_status (topk : Nat) (reverse : Bool)
    (s : Status) (pay : List (List QueryResult))
    (pre rest : List FilesCollection)
    (h : ∀ f ∈ pre, f.isTuple = false) :
    doMerge (pre ++ FilesCollection.err s pay :: rest) topk reverse = (s, []) :=
  doMerge_first_tuple topk reverse s pay rest pre h

/-- Witness for C3 (amended): spec scenario 5 — one shard fails with
`Unavailable`, the other returns rows; the merge yields the failure status
and no rows. -/
theorem merge_returns_first_tuple_status_witness :
    (∀ f ∈ ([FilesCollection.ok [[⟨1, 2⟩]]] : List FilesCollection),
      f.isTuple = false) ∧
    doMerge ([FilesCollection.ok [[⟨1, 2⟩]]] ++
        FilesCollection.err ⟨14, "Unavailable"⟩ [] :: []) 2 false =
      (⟨14, "Unavailable"⟩, []) :=
  ⟨by decide,
    merge_returns_first_tuple_status 2 false ⟨14, "Unavailable"⟩ [] _ [] (by decide)⟩

/-- C9: If the first tuple-shaped element of the merger's input carries a
`Success` status, `_do_merge` returns `Success` paired with an empty
result list, silently discarding the rows of every other partial: the
short-circuit tests only the element's shape, never its status code. -/
theorem merge_success_tuple_short_circuit (topk : Nat) (reverse : Bool)
    (pay : List (List QueryResult)) (pre rest : List FilesCollection)
    (h : ∀ f ∈ pre, f.isTuple = false) :
    doMerge (pre ++ FilesCollection.err statusSuccess pay :: rest) topk reverse =
      (statusSuccess, []) :=
  doMerge_first_tuple topk reverse statusSuccess pay rest pre h

/-- Witness for C9: a `Success`-shaped tuple sandwiched between two
row-bearing partials; everything is discarded. -/
theorem merge_success_tuple_short_circuit_witness :
    (∀ f ∈ ([FilesCollection.ok [[⟨1, 2⟩]]] : List FilesCollection),
      f.isTuple = false) ∧
    doMerge ([FilesCollection.ok [[⟨1, 2⟩]]] ++
        FilesCollection.err statusSuccess [] ::
          [FilesCollection.ok [[⟨7, 1⟩]]]) 2 false = (statusSuccess, []) :=
  ⟨by decide,
    merge_success_tuple_short_circuit 2 false [] _ [FilesCollection.ok [[⟨7, 1⟩]]]
      (by decide)⟩

/-- C4: For every `Search` request with `topk` outside `0 < topk ≤ 2048`
(`MAX_TOPK`) or `nprobe` outside `0 < nprobe ≤ 2048` (`MAX_NPROBE`), the
request terminates with an `InvalidArgument` error and no backend call is
issued: no `describe_table` lookup, no routing, no
`search_vectors_in_files` sub-query (empty call trace). -/
theorem search_rejects_invalid_topk_nprobe (env : SearchEnv)
    (cache : String → Option TableInfo) (request : SearchRequest)
    (h : ¬(0 < request.topk ∧ request.topk ≤ MAX_TOPK) ∨
      ¬(0 < request.nprobe ∧ request.nprobe ≤ MAX_NPROBE)) :
    (Search env cache request).1 = Sum.inr RpcError.invalidArgument ∧
    (Search env cache request).2.1 = [] := by
  unfold Search
  by_cases h1 : request.nprobe > MAX_NPROBE ∨ request.nprobe ≤ 0
  · rw [if_pos h1]
    exact ⟨rfl, rfl⟩
  · have h2 : request.topk > MAX_TOPK ∨ request.topk ≤ 0 := by
      unfold MAX_TOPK MAX_NPROBE at *
      omega
    rw [if_neg h1, if_pos h2]
    exact ⟨rfl, rfl⟩

/-- Witness for C4: spec scenario 6 — `K = 0` is rejected with no backend
calls. -/
theorem search_rejects_invalid_topk_nprobe_witness :
    (¬(0 < (0 : Int) ∧ (0 : Int) ≤ MAX_TOPK) ∨
      ¬(0 < (16 : Int) ∧ (16 : Int) ≤ MAX_NPROBE)) ∧
    (Search
      { describe_table := fun _ => (statusSuccess, ⟨"t", 2, 1024, MetricType.L2⟩),
        routing := fun _ _ => [("addr", [1])],
        search_vectors_in_files := fun _ _ _ _ _ _ => FilesCollection.ok [] }
      (fun _ => none)
      ⟨"t", 0, 16, [[1]], []⟩).1 = Sum.inr RpcError.invalidArgument ∧
    (Search
      { describe_table := fun _ => (statusSuccess, ⟨"t", 2, 1024, MetricType.L2⟩),
        routing := fun _ _ => [("addr", [1])],
        search_vectors_in_files := fun _ _ _ _ _ _ => FilesCollection.ok [] }
      (fun _ => none)
      ⟨"t", 0, 16, [[1]], []⟩).2.1 = [] := by
  refine ⟨by decide, ?_, ?_⟩
  · exact (search_rejects_invalid_topk_nprobe _ _ _ (by decide)).1
  · exact (search_rejects_invalid_topk_nprobe _ _ _ (by decide)).2

/-- C5: For every `Search` request (with valid bounds) on a table whose
descriptor is not in the cache and whose `describe_table` lookup returns a
non-OK status, the request fails with `NotFound`, and no routing call and
no sub-query dispatch occurs (the call trace holds only the
`describe_table` lookup); the cache is left unchanged. -/
theorem search_unknown_table_not_found (env : SearchEnv)
    (cache : String → Option TableInfo) (request : SearchRequest)
    (hnp : 0 < request.nprobe ∧ request.nprobe ≤ MAX_NPROBE)
    (htk : 0 < request.topk ∧ request.topk ≤ MAX_TOPK)
    (hmiss : cache request.table_name = none)
    (hfail : (env.describe_table request.table_name).1.error_code ≠ 0) :
    (Search env cache request).1 = Sum.inr RpcError.notFound ∧
    (Search env cache request).2.1 =
      [BackendCall.describeTable request.table_name] ∧
    (Search env cache request).2.2.1 = cache := by
  have h1 : ¬(request.nprobe > MAX_NPROBE ∨ request.nprobe ≤ 0) := by
    unfold MAX_NPROBE at hnp ⊢
    omega
  have h2 : ¬(request.topk > MAX_TOPK ∨ request.topk ≤ 0) := by
    unfold MAX_TOPK at htk ⊢
    omega
  unfold Search
  rw [if_neg h1, if_neg h2, hmiss]
  rw [if_pos hfail]
  exact ⟨rfl, rfl, rfl⟩

/-- Witness for C5: a backend that answers `describe_table` with an error
code; the request yields `NotFound` after exactly one lookup. -/
theorem search_unknown_table_not_found_witness :
    ((0 < (16 : Int) ∧ (16 : Int) ≤ MAX_NPROBE) ∧
     (0 < (10 : Int) ∧ (10 : Int) ≤ MAX_TOPK)) ∧
    (Search
      { describe_table := fun _ => (⟨3, "table not found"⟩, ⟨"t", 2, 1024, MetricType.L2⟩),
        routing := fun _ _ => [("addr", [1])],
        search_vectors_in_files := fun _ _ _ _ _ _ => FilesCollection.ok [] }
      (fun _ => none)
      ⟨"t", 10, 16, [[1]], []⟩).1 = Sum.inr RpcError.notFound ∧
    (Search
      { describe_table := fun _ => (⟨3, "table not found"⟩, ⟨"t", 2, 1024, MetricType.L2⟩),
        routing := fun _ _ => [("addr", [1])],
        search_vectors_in_files := fun _ _ _ _ _ _ => FilesCollection.ok [] }
      (fun _ => none)
      ⟨"t", 10, 16, [[1]], []⟩).2.1 = [BackendCall.describeTable "t"] := by
  refine ⟨⟨by decide, by decide⟩, ?_, ?_⟩
  · exact (search_unknown_table_not_found _ _ _ (by decide) (by decide)
      (by decide) (by decide)).1
  · exact (search_unknown_table_not_found _ _ _ (by decide) (by decide)
      (by decide) (by decide)).2.1

/-- C6 counterexample: on ragged input — one partial with one block, one
with two — `_do_merge` does not return an `Internal` error: it merges and
returns `Success` (code 0) with the maximal number of blocks. -/
theorem merge_ragged_no_internal_error :
    doMerge [FilesCollection.ok [[⟨1, 5⟩]],
        FilesCollection.ok [[⟨2, 5⟩], [⟨3, 1⟩]]] 2 false =
      (statusSuccess, [[⟨1, 5⟩, ⟨2, 5⟩], [⟨3, 1⟩]]) ∧
    statusSuccess.error_code = 0 :=
  ⟨by decide, rfl⟩

/-- C6 (amended): collections with fewer blocks than others are not
treated as malformed: the merge of any nonempty tuple-free input returns
`Success`, and the output holds one block per position up to the maximum
block count over the input collections (shorter collections simply
contribute nothing at the positions they lack). -/
theorem merge_ragged_success_max_blocks (topk : Nat) (reverse : Bool)
    (fs : List FilesCollection) (hne : fs ≠ [])
    (hok : ∀ f ∈ fs, f.isTuple = false) :
    (doMerge fs topk reverse).1 = statusSuccess ∧
    (doMerge fs topk reverse).2.length =
      fs.foldl (fun m f => max m f.blocks.length) 0 := by
  match fs, hne with
  | f :: rest, _ =>
    have h := doMergeLoop_no_tuple topk reverse (f :: rest) [] hok
    rw [List.length_nil] at h
    exact h

/-- Witness for C6 (amended), at the counterexample's ragged input. -/
theorem merge_ragged_success_max_blocks_witness :
    (([FilesCollection.ok [[⟨1, 5⟩]],
       FilesCollection.ok [[⟨2, 5⟩], [⟨3, 1⟩]]] : List FilesCollection) ≠ [] ∧
     (∀ f ∈ ([FilesCollection.ok [[⟨1, 5⟩]],
        FilesCollection.ok [[⟨2, 5⟩], [⟨3, 1⟩]]] : List FilesCollection),
       f.isTuple = false)) ∧
    (doMerge [FilesCollection.ok [[⟨1, 5⟩]],
        FilesCollection.ok [[⟨2, 5⟩], [⟨3, 1⟩]]] 2 false).1 = statusSuccess ∧
    (doMerge [FilesCollection.ok [[⟨1, 5⟩]],
        FilesCollection.ok [[⟨2, 5⟩], [⟨3, 1⟩]]] 2 false).2.length =
      ([FilesCollection.ok [[⟨1, 5⟩]],
        FilesCollection.ok [[⟨2, 5⟩], [⟨3, 1⟩]]] : List FilesCollection).foldl
        (fun m f => max m f.blocks.length) 0 :=
  ⟨⟨by decide, by decide⟩,
    merge_ragged_success_max_blocks 2 false _ (by decide) (by decide)⟩

end Mishards

namespace Mishards

open StableSort

theorem doQuery_eq (env : SearchEnv) (t : String) (m : TableInfo)
    (vecs : List (List ℚ)) (topk nprobe : Int) (ranges : List (ℚ × ℚ)) :
    doQuery env t m vecs topk nprobe ranges =
      (doMerge ((env.routing t ranges).map fun ap =>
          env.search_vectors_in_files ap.1 t ap.2 vecs topk nprobe)
        topk.toNat (decide (m.metric_type = MetricType.IP)),
       BackendCall.routing t :: (env.routing t ranges).map fun ap =>
         BackendCall.searchFiles ap.1 t) := rfl

theorem pairwise_distance_of_sorted_false {bl : List QueryResult}
    (h : List.Sorted (keyLE (distKey false)) bl) :
    bl.Pairwise fun a b => a.distance ≤ b.distance :=
  h.imp fun {a b} hab => by simpa [keyLE, distKey] using hab

theorem pairwise_distance_of_sorted_true {bl : List QueryResult}
    (h : List.Sorted (keyLE (distKey true)) bl) :
    bl.Pairwise fun a b => b.distance ≤ a.distance :=
  h.imp fun {a b} hab => by
    have : -a.distance ≤ -b.distance := by simpa [keyLE, distKey] using hab
    exact neg_le_neg_iff.mp this

/-- C2 counterexample: a valid `Search` with one query vector (`nq = 1`)
whose routing plan is empty returns `Success` with zero result blocks —
not `nq` empty blocks. -/
theorem search_empty_plan_zero_blocks :
    (Search
      { describe_table := fun _ => (statusSuccess, ⟨"t", 2, 1024, MetricType.L2⟩),
        routing := fun _ _ => [],
        search_vectors_in_files := fun _ _ _ _ _ _ => FilesCollection.ok [] }
      (fun _ => some ⟨"t", 2, 1024, MetricType.L2⟩)
      ⟨"t", 10, 16, [[1]], []⟩).1 = Sum.inl statusSuccess ∧
    (Search
      { describe_table := fun _ => (statusSuccess, ⟨"t", 2, 1024, MetricType.L2⟩),
        routing := fun _ _ => [],
        search_vectors_in_files := fun _ _ _ _ _ _ => FilesCollection.ok [] }
      (fun _ => some ⟨"t", 2, 1024, MetricType.L2⟩)
      ⟨"t", 10, 16, [[1]], []⟩).2.2.2.length = 0 ∧
    (⟨"t", 10, 16, [[1]], []⟩ : SearchRequest).query_record_array.length = 1 := by
  refine ⟨by decide, by decide, by decide⟩

/-- C2 (amended): For every validated `Search` whose descriptor resolves
and whose sub-queries all return tuple-free partials with exactly `nq`
blocks (`nq` = number of input query vectors): if the routing plan is
nonempty the response status is `Success`, the result has exactly `nq`
blocks, each block has at most `topk` rows, distances within a block are
non-decreasing for `L2` and non-increasing for `IP`, and if every partial
is empty every returned block is empty; if the routing plan is empty (zero
partials) the response is `Success` with an empty block list — not `nq`
empty blocks. -/
theorem search_success_shape (env : SearchEnv)
    (cache : String → Option TableInfo) (request : SearchRequest)
    (m : TableInfo)
    (hnp : 0 < request.nprobe ∧ request.nprobe ≤ MAX_NPROBE)
    (htk : 0 < request.topk ∧ request.topk ≤ MAX_TOPK)
    (hm : resolveMeta env cache request.table_name = some m)
    (hparts : ∀ fc ∈ (env.routing request.table_name request.query_range_array).map
        (fun ap => env.search_vectors_in_files ap.1 request.table_name ap.2
          request.query_record_array request.topk request.nprobe),
      fc.isTuple = false ∧ fc.blocks.length = request.query_record_array.length) :
    (env.routing request.table_name request.query_range_array ≠ [] →
      (Search env cache request).1 = Sum.inl statusSuccess ∧
      (Search env cache request).2.2.2.length = request.query_record_array.length ∧
      ∀ bl ∈ (Search env cache request).2.2.2,
        bl.length ≤ request.topk.toNat ∧
        (m.metric_type = MetricType.IP →
          bl.Pairwise fun a b => b.distance ≤ a.distance) ∧
        (m.metric_type = MetricType.L2 →
          bl.Pairwise fun a b => a.distance ≤ b.distance) ∧
        ((∀ fc ∈ (env.routing request.table_name request.query_range_array).map
            (fun ap => env.search_vectors_in_files ap.1 request.table_name ap.2
              request.query_record_array request.topk request.nprobe),
          ∀ b' ∈ fc.blocks, b' = []) → bl = [])) ∧
    (env.routing request.table_name request.query_range_array = [] →
      (Search env cache request).1 = Sum.inl statusSuccess ∧
      (Search env cache request).2.2.2 = []) := by
  obtain ⟨hs1, hs2⟩ := Search_run env cache request m hnp htk hm
  rw [doQuery_eq] at hs1 hs2
  constructor
  · intro hplan
    have hpne : (env.routing request.table_name request.query_range_array).map
        (fun ap => env.search_vectors_in_files ap.1 request.table_name ap.2
          request.query_record_array request.topk request.nprobe) ≠ [] := by
      simpa using hplan
    obtain ⟨h1, h2, h3⟩ := doMerge_ok request.topk.toNat
      (decide (m.metric_type = MetricType.IP))
      request.query_record_array.length _ hpne hparts
    refine ⟨by rw [hs1, h1], by rw [hs2, h2], ?_⟩
    intro bl hbl
    rw [hs2] at hbl
    obtain ⟨p, hp⟩ := List.mem_iff_getElem?.mp hbl
    rw [h3 p] at hp
    by_cases hplt : p < request.query_record_array.length
    case neg =>
      rw [if_neg hplt] at hp
      cases hp
    rw [if_pos hplt] at hp
    obtain rfl : mergeReference (decide (m.metric_type = MetricType.IP))
        request.topk.toNat _ = bl := Option.some.inj hp
    refine ⟨mergeReference_length_le _ _ _, ?_, ?_, ?_⟩
    · intro hmt
      have hdec : (decide (m.metric_type = MetricType.IP)) = true := by
        rw [hmt]
        simp
      rw [hdec]
      exact pairwise_distance_of_sorted_true (mergeReference_sorted true _ _)
    · intro hmt
      have hdec : (decide (m.metric_type = MetricType.IP)) = false := by
        rw [hmt]
        simp
      rw [hdec]
      exact pairwise_distance_of_sorted_false (mergeReference_sorted false _ _)
    · intro hempty
      have hrows : (((env.routing request.table_name request.query_range_array).map
          (fun ap => env.search_vectors_in_files ap.1 request.table_name ap.2
            request.query_record_array request.topk request.nprobe)).map
          fun f => f.blocks[p]?.getD []).flatten = [] := by
        rw [List.flatten_eq_nil_iff]
        intro l hl
        obtain ⟨f, hf, rfl⟩ := List.mem_map.mp hl
        cases hb : f.blocks[p]? with
        | none => simp
        | some b' =>
          rw [Option.getD_some]
          exact hempty f hf b' (List.getElem?_mem hb)
      rw [hrows, mergeReference_nil]
  · intro hplan
    rw [hplan] at hs1 hs2
    simp only [List.map_nil] at hs1 hs2
    exact ⟨hs1, hs2⟩

/-- Witness for C2 (amended): a one-address plan with one partial holding
one block of one row; the response is `Success` with one block. -/
theorem search_success_shape_witness :
    (((0 : Int) < 16 ∧ (16 : Int) ≤ MAX_NPROBE) ∧
     ((0 : Int) < 10 ∧ (10 : Int) ≤ MAX_TOPK) ∧
     resolveMeta
       { describe_table := fun _ => (statusSuccess, ⟨"t", 2, 1024, MetricType.L2⟩),
         routing := fun _ _ => [("a", [1])],
         search_vectors_in_files := fun _ _ _ _ _ _ => FilesCollection.ok [[⟨1, 2⟩]] }
       (fun _ => some ⟨"t", 2, 1024, MetricType.L2⟩) "t" =
       some ⟨"t", 2, 1024, MetricType.L2⟩) ∧
    (Search
      { describe_table := fun _ => (statusSuccess, ⟨"t", 2, 1024, MetricType.L2⟩),
        routing := fun _ _ => [("a", [1])],
        search_vectors_in_files := fun _ _ _ _ _ _ => FilesCollection.ok [[⟨1, 2⟩]] }
      (fun _ => some ⟨"t", 2, 1024, MetricType.L2⟩)
      ⟨"t", 10, 16, [[1]], []⟩).1 = Sum.inl statusSuccess ∧
    (Search
      { describe_table := fun _ => (statusSuccess, ⟨"t", 2, 1024, MetricType.L2⟩),
        routing := fun _ _ => [("a", [1])],
        search_vectors_in_files := fun _ _ _ _ _ _ => FilesCollection.ok [[⟨1, 2⟩]] }
      (fun _ => some ⟨"t", 2, 1024, MetricType.L2⟩)
      ⟨"t", 10, 16, [[1]], []⟩).2.2.2.length = 1 := by
  refine ⟨⟨by decide, by decide, by decide⟩, ?_, ?_⟩
  · exact ((search_success_shape _ _ _ ⟨"t", 2, 1024, MetricType.L2⟩ (by decide)
      (by decide) (by decide) (by decide)).1 (by decide)).1
  · exact ((search_success_shape _ _ _ ⟨"t", 2, 1024, MetricType.L2⟩ (by decide)
      (by decide) (by decide) (by decide)).1 (by decide)).2.1

theorem Search_cache_cases (env : SearchEnv)
    (cache : String → Option TableInfo) (request : SearchRequest) :
    (Search env cache request).2.2.1 = cache ∨
    (cache request.table_name = none ∧
     (env.describe_table request.table_name).1.error_code = 0 ∧
     (Search env cache request).2.2.1 = fun t =>
       if t = request.table_name then
         some (env.describe_table request.table_name).2 else cache t) := by
  unfold Search
  by_cases h1 : request.nprobe > MAX_NPROBE ∨ request.nprobe ≤ 0
  · rw [if_pos h1]
    exact Or.inl rfl
  rw [if_neg h1]
  by_cases h2 : request.topk > MAX_TOPK ∨ request.topk ≤ 0
  · rw [if_pos h2]
    exact Or.inl rfl
  rw [if_neg h2]
  cases hc : cache request.table_name with
  | some mv => exact Or.inl rfl
  | none =>
    by_cases he : (env.describe_table request.table_name).1.error_code ≠ 0
    · rw [if_pos he]
      exact Or.inl rfl
    · rw [if_neg he]
      exact Or.inr ⟨rfl, by simpa using he, rfl⟩

/-- C10: `Search` writes to the table-descriptor cache only on a cache
miss whose `describe_table` lookup succeeds (within a validated request);
when the lookup fails the cache is left unchanged (the `NotFound` error is
raised before any cache write); an entry already present is never
overwritten or removed. -/
theorem search_cache_frame (env : SearchEnv)
    (cache : String → Option TableInfo) (request : SearchRequest) :
    (∀ t mv, cache t = some mv → (Search env cache request).2.2.1 t = some mv) ∧
    ((env.describe_table request.table_name).1.error_code ≠ 0 →
      (Search env cache request).2.2.1 = cache) ∧
    (∀ mv, cache request.table_name = some mv →
      (Search env cache request).2.2.1 = cache) ∧
    (cache request.table_name = none →
      (env.describe_table request.table_name).1.error_code = 0 →
      0 < request.nprobe → request.nprobe ≤ MAX_NPROBE →
      0 < request.topk → request.topk ≤ MAX_TOPK →
      (Search env cache request).2.2.1 = fun t =>
        if t = request.table_name then
          some (env.describe_table request.table_name).2 else cache t) := by
  refine ⟨?_, ?_, ?_, ?_⟩
  · intro t mv hmv
    rcases Search_cache_cases env cache request with h | ⟨hmiss, _, h⟩
    · rw [h]
      exact hmv
    · rw [h]
      by_cases ht : t = request.table_name
      · subst ht
        rw [hmv] at hmiss
        cases hmiss
      · dsimp only
        rw [if_neg ht]
        exact hmv
  · intro hf
    rcases Search_cache_cases env cache request with h | ⟨_, h0, _⟩
    · exact h
    · exact absurd h0 hf
  · intro mv hmv
    rcases Search_cache_cases env cache request with h | ⟨hmiss, _, _⟩
    · exact h
    · rw [hmv] at hmiss
      cases hmiss
  · intro hmiss h0 ha hb hcc hd
    have h1 : ¬(request.nprobe > MAX_NPROBE ∨ request.nprobe ≤ 0) := by
      unfold MAX_NPROBE at hb ⊢
      omega
    have h2 : ¬(request.topk > MAX_TOPK ∨ request.topk ≤ 0) := by
      unfold MAX_TOPK at hd ⊢
      omega
    unfold Search
    rw [if_neg h1, if_neg h2, hmiss, if_neg (by simpa using h0)]

/-- Witness for C10: a miss on `"t"` with a successful lookup writes the
descriptor for `"t"` and preserves the existing entry for `"u"`. -/
theorem search_cache_frame_witness :
    ((fun s => if s = "u" then some (⟨"u", 3, 512, MetricType.IP⟩ : TableInfo)
        else none) "u" = some (⟨"u", 3, 512, MetricType.IP⟩ : TableInfo)) ∧
    (Search
      { describe_table := fun _ => (statusSuccess, ⟨"t", 2, 1024, MetricType.L2⟩),
        routing := fun _ _ => [("a", [1])],
        search_vectors_in_files := fun _ _ _ _ _ _ => FilesCollection.ok [[⟨1, 2⟩]] }
      (fun s => if s = "u" then some ⟨"u", 3, 512, MetricType.IP⟩ else none)
      ⟨"t", 10, 16, [[1]], []⟩).2.2.1 "u" = some ⟨"u", 3, 512, MetricType.IP⟩ ∧
    (Search
      { describe_table := fun _ => (statusSuccess, ⟨"t", 2, 1024, MetricType.L2⟩),
        routing := fun _ _ => [("a", [1])],
        search_vectors_in_files := fun _ _ _ _ _ _ => FilesCollection.ok [[⟨1, 2⟩]] }
      (fun s => if s = "u" then some ⟨"u", 3, 512, MetricType.IP⟩ else none)
      ⟨"t", 10, 16, [[1]], []⟩).2.2.1 = fun t =>
        if t = "t" then some ⟨"t", 2, 1024, MetricType.L2⟩
        else (fun s => if s = "u" then some (⟨"u", 3, 512, MetricType.IP⟩ : TableInfo)
          else none) t := by
  refine ⟨by decide, ?_, ?_⟩
  · exact (search_cache_frame _ _ _).1 "u" _ (by decide)
  · exact (search_cache_frame _ _ _).2.2.2 (by decide) (by decide) (by decide)
      (by decide) (by decide) (by decide)

end Mishards

namespace Mishards

open StableSort

theorem mergeReference_fun (reverse : Bool) (topk : Nat) :
    mergeReference reverse topk = keySortTake (distKey reverse) topk := rfl

/-- Re-merging already-merged groups agrees with merging all rows at
once (the `keySortTake` absorption transported to `mergeReference`). -/
theorem mergeReference_flatten_map (reverse : Bool) (topk : Nat)
    (Xs : List (List QueryResult)) :
    mergeReference reverse topk
        ((Xs.map fun X => mergeReference reverse topk X).flatten) =
      mergeReference reverse topk Xs.flatten := by
  rw [mergeReference_fun]
  exact keySortTake_flatten_map topk Xs

/-- C7: Merging is associative over partials modulo the tie-break rule:
for every ordered partition of a nonempty list of tuple-free partials
(each with `nq` blocks) into nonempty contiguous groups — the groupings
that preserve the partial order the tie-break rule refers to — merging
each group with the same `topk` and metric and then merging the group
results equals merging all partials at once; and the incremental fold the
code performs equals the concatenate-all-then-stable-sort-then-truncate
reference at every position. -/
theorem merge_partition_associative (topk : Nat) (reverse : Bool) (nq : Nat)
    (gs : List (List FilesCollection)) (hgs : gs ≠ [])
    (hne : ∀ g ∈ gs, g ≠ [])
    (hok : ∀ g ∈ gs, ∀ f ∈ g, f.isTuple = false ∧ f.blocks.length = nq) :
    doMerge (gs.map fun g => FilesCollection.ok (doMerge g topk reverse).2)
        topk reverse = doMerge gs.flatten topk reverse ∧
    ∀ p : Nat, p < nq →
      (doMerge gs.flatten topk reverse).2[p]? =
        some (mergeReference reverse topk
          ((gs.flatten.map fun f => f.blocks[p]?.getD []).flatten)) := by
  have hfne : gs.flatten ≠ [] := by
    cases gs with
    | nil => exact absurd rfl hgs
    | cons g gs' =>
      rw [List.flatten_cons]
      intro hcon
      exact hne g (List.mem_cons_self g gs') (List.append_eq_nil.mp hcon).1
  have hfok : ∀ f ∈ gs.flatten, f.isTuple = false ∧ f.blocks.length = nq := by
    intro f hf
    obtain ⟨g, hg, hfg⟩ := List.mem_flatten.mp hf
    exact hok g hg f hfg
  obtain ⟨hf1, hf2, hf3⟩ := doMerge_ok topk reverse nq gs.flatten hfne hfok
  have houter : ∀ f ∈ gs.map (fun g => FilesCollection.ok (doMerge g topk reverse).2),
      f.isTuple = false ∧ f.blocks.length = nq := by
    intro f hf
    obtain ⟨g, hg, rfl⟩ := List.mem_map.mp hf
    exact ⟨rfl, (doMerge_ok topk reverse nq g (hne g hg) (hok g hg)).2.1⟩
  have houtne : gs.map (fun g => FilesCollection.ok (doMerge g topk reverse).2) ≠ [] := by
    simpa using hgs
  obtain ⟨ho1, ho2, ho3⟩ := doMerge_ok topk reverse nq _ houtne houter
  refine ⟨?_, fun p hp => by rw [hf3 p, if_pos hp]⟩
  refine Prod.ext ?_ ?_
  · rw [ho1, hf1]
  · refine List.ext_getElem? fun p => ?_
    rw [ho3 p, hf3 p]
    by_cases hp : p < nq
    case neg =>
      rw [if_neg hp, if_neg hp]
    rw [if_pos hp, if_pos hp]
    have hblocks : ((gs.map fun g => FilesCollection.ok (doMerge g topk reverse).2).map
          fun f => f.blocks[p]?.getD []) =
        gs.map fun g =>
          mergeReference reverse topk ((g.map fun f => f.blocks[p]?.getD []).flatten) := by
      rw [List.map_map]
      refine List.map_congr_left fun g hg => ?_
      have hgp := (doMerge_ok topk reverse nq g (hne g hg) (hok g hg)).2.2 p
      rw [if_pos hp] at hgp
      show (doMerge g topk reverse).2[p]?.getD [] = _
      rw [hgp, Option.getD_some]
    rw [hblocks]
    have hkey := mergeReference_flatten_map reverse topk
      (gs.map fun g => (g.map fun f => f.blocks[p]?.getD []).flatten)
    simp only [List.map_map, Function.comp_def] at hkey
    have hflat : (gs.flatten.map fun f => f.blocks[p]?.getD []).flatten =
        (gs.map fun g => (g.map fun f => f.blocks[p]?.getD []).flatten).flatten := by
      simp only [List.map_flatten, List.flatten_flatten, List.map_map, Function.comp_def]
    rw [hflat]
    exact congrArg some hkey

/-- Witness for C7: two singleton groups, `nq = 1`, `K = 2`, `L2`. -/
theorem merge_partition_associative_witness :
    (([[FilesCollection.ok [[⟨1, 3⟩]]], [FilesCollection.ok [[⟨2, 1⟩]]]] :
        List (List FilesCollection)) ≠ [] ∧
     (∀ g ∈ ([[FilesCollection.ok [[⟨1, 3⟩]]], [FilesCollection.ok [[⟨2, 1⟩]]]] :
        List (List FilesCollection)), g ≠ []) ∧
     (∀ g ∈ ([[FilesCollection.ok [[⟨1, 3⟩]]], [FilesCollection.ok [[⟨2, 1⟩]]]] :
        List (List FilesCollection)), ∀ f ∈ g,
        f.isTuple = false ∧ f.blocks.length = 1)) ∧
    doMerge (([[FilesCollection.ok [[⟨1, 3⟩]]], [FilesCollection.ok [[⟨2, 1⟩]]]] :
        List (List FilesCollection)).map
        fun g => FilesCollection.ok (doMerge g 2 false).2) 2 false =
      doMerge ([[FilesCollection.ok [[⟨1, 3⟩]]],
        [FilesCollection.ok [[⟨2, 1⟩]]]] : List (List FilesCollection)).flatten
        2 false :=
  ⟨⟨by decide, by decide, by decide⟩,
    (merge_partition_associative 2 false 1 _ (by decide) (by decide) (by decide)).1⟩

end Mishards
